import Mathlib

/-!
Verification of the falling-sand cellular automaton from `src/world.rs`
(`LudeeD/autocel`).

The Rust source is shallowly embedded:

* `CellClass`, `CellProperties` (a `u32` bitflag set, embedded as `Nat`
  with bitwise `&&&`), `Cell` and its constructors mirror the Rust types.
* `SandWorld` mirrors the Rust struct; the `HashMap<usize, Vec<usize>>`
  field `changes` is embedded as an association list
  `List (Nat × List Nat)` whose unordered (hash-ordered) iteration in
  `commit_cells` is captured by quantifying over permutations of the list.
* Randomness (`rand::gen_range`) is embedded by explicit oracles: the
  per-cell tie-break coin of the movement rules becomes a
  `coin : Nat → Nat → Bool` argument, and the per-destination candidate
  selection of `commit_cells` becomes a stream `rs : List Nat` of draws,
  reduced modulo the candidate-list length (every value `gen_range` can
  return is realizable by some oracle, and no others are).
* The keyboard/mouse handling at the top of `SandWorld::update` is
  external I/O and is outside the embedded tick (the claims under study
  concern ticks with no paint edits); `update` below embeds the
  double-loop intent scan that follows it, verbatim.
-/

/-- CellClass mirrors the Rust `enum CellClass`. -/
inductive CellClass where
  | Empty
  | Sand
  | Water
  | Rock
  | Smoke
deriving DecidableEq

namespace CellProperties

/-- MOVEDOWN bit of the Rust `CellProperties` bitflags. -/
def MOVEDOWN : Nat := 1

/-- MOVEDOWNSIDE bit of the Rust `CellProperties` bitflags. -/
def MOVEDOWNSIDE : Nat := 2

/-- MOVESIDE bit of the Rust `CellProperties` bitflags. -/
def MOVESIDE : Nat := 4

/-- MOVEUP bit of the Rust `CellProperties` bitflags. -/
def MOVEUP : Nat := 8

/-- MOVEUPSIDE bit of the Rust `CellProperties` bitflags. -/
def MOVEUPSIDE : Nat := 16

end CellProperties

/-- Cell mirrors the Rust `struct Cell { class, properties }`; the Rust
field `class` is a Lean keyword and is renamed `cls`. -/
structure Cell where
  cls : CellClass
  properties : Nat
deriving DecidableEq

namespace Cell

/-- Cell.empty mirrors `Cell::empty()`. -/
def empty : Cell := { cls := CellClass.Empty, properties := 0 }

/-- Cell.sand mirrors `Cell::sand()`. -/
def sand : Cell :=
  { cls := CellClass.Sand
    properties := CellProperties.MOVEDOWN ||| CellProperties.MOVEDOWNSIDE }

/-- Cell.water mirrors `Cell::water()`. -/
def water : Cell :=
  { cls := CellClass.Water
    properties := CellProperties.MOVEDOWN ||| CellProperties.MOVESIDE |||
      CellProperties.MOVEDOWNSIDE }

/-- Cell.rock mirrors `Cell::rock()`. -/
def rock : Cell := { cls := CellClass.Rock, properties := 0 }

/-- Cell.smoke mirrors `Cell::smoke()`. -/
def smoke : Cell :=
  { cls := CellClass.Smoke
    properties := CellProperties.MOVEUP ||| CellProperties.MOVEUPSIDE }

end Cell

/-- SandWorld mirrors the Rust `struct SandWorld`.  The `cells` vector is a
`List Cell`; the `changes` hash map is an association list from destination
index to the vector of candidate source indices. -/
structure SandWorld where
  brush : Cell
  width : Nat
  height : Nat
  scale : Nat
  cells : List Cell
  changes : List (Nat × List Nat)
  water_cells : Nat
deriving DecidableEq

/-- entryPush embeds `self.changes.entry(index_to).or_insert(Vec::new()).push(index)`:
append `index` to the candidate vector of key `index_to`, creating the entry
if absent. -/
def entryPush : List (Nat × List Nat) → Nat → Nat → List (Nat × List Nat)
  | [], index_to, index => [(index_to, [index])]
  | (k, vs) :: rest, index_to, index =>
      if k = index_to then (k, vs ++ [index]) :: rest
      else (k, vs) :: entryPush rest index_to index

namespace SandWorld

/-- new mirrors `SandWorld::new`: an all-empty grid except that index 0 is
overwritten with a Sand cell carrying only the MOVEDOWN capability. -/
def new (width height scale : Nat) : SandWorld :=
  { brush := Cell.sand
    width := width
    height := height
    scale := scale
    cells := ((List.replicate (width * height) Cell.empty).set 0
      { cls := CellClass.Sand, properties := CellProperties.MOVEDOWN })
    changes := []
    water_cells := 0 }

/-- get_index_by_pos mirrors `SandWorld::get_index_by_pos`. -/
def get_index_by_pos (w : SandWorld) (x y : Nat) : Nat :=
  y * w.width + x

/-- get_cell_by_pos mirrors `SandWorld::get_cell_by_pos` (the Rust indexing
panics out of range; all embedded callers stay in range, and the `getD`
default is never reached there). -/
def get_cell_by_pos (w : SandWorld) (x y : Nat) : Cell :=
  w.cells.getD (y * w.width + x) Cell.empty

/-- in_bounds mirrors `SandWorld::in_bounds`. -/
def in_bounds (w : SandWorld) (x y : Nat) : Bool :=
  decide (x < w.width) && decide (y < w.height)

/-- is_empty mirrors `SandWorld::is_empty`: false out of bounds, else tests
the material. -/
def is_empty (w : SandWorld) (x y : Nat) : Bool :=
  if w.in_bounds x y then decide ((w.get_cell_by_pos x y).cls = CellClass.Empty)
  else false

/-- move_cell mirrors `SandWorld::move_cell`: record the move in `changes`. -/
def move_cell (w : SandWorld) (x y xto yto : Nat) : SandWorld :=
  { w with changes := entryPush w.changes (w.get_index_by_pos xto yto) (w.get_index_by_pos x y) }

/-- move_down mirrors `SandWorld::move_down`; the returned `Bool` is the
Rust return value, paired with the updated state (`&mut self`). -/
def move_down (w : SandWorld) (x y : Nat) : Bool × SandWorld :=
  let dest_y := y + 1
  if ¬ w.in_bounds x dest_y then (false, w)
  else
    let dest_cell := w.get_cell_by_pos x dest_y
    let current_cell := w.get_cell_by_pos x y
    let can_move := dest_cell.cls = CellClass.Empty ∨
      (current_cell.cls = CellClass.Sand ∧ dest_cell.cls = CellClass.Water)
    if can_move then (true, w.move_cell x y x dest_y) else (false, w)

/-- move_side mirrors `SandWorld::move_side`; `coin` embeds the
`rand::gen_range(0, 2) == 0` tie-break draw. -/
def move_side (w : SandWorld) (x y : Nat) (coin : Bool) : Bool × SandWorld :=
  let left0 := decide (x > 0) && w.is_empty (x - 1) y
  let right0 := w.is_empty (x + 1) y
  let left := if left0 && right0 then coin else left0
  let right := if left0 && right0 then !coin else right0
  if left then (true, w.move_cell x y (x - 1) y)
  else if right then (true, w.move_cell x y (x + 1) y)
  else (false, w)

/-- move_down_side mirrors `SandWorld::move_down_side`. -/
def move_down_side (w : SandWorld) (x y : Nat) (coin : Bool) : Bool × SandWorld :=
  let down_left0 := decide (x > 0) && w.is_empty (x - 1) (y + 1)
  let down_right0 := w.is_empty (x + 1) (y + 1)
  let down_left := if down_left0 && down_right0 then coin else down_left0
  let down_right := if down_left0 && down_right0 then !coin else down_right0
  if down_left then (true, w.move_cell x y (x - 1) (y + 1))
  else if down_right then (true, w.move_cell x y (x + 1) (y + 1))
  else (false, w)

/-- move_up mirrors `SandWorld::move_up`. -/
def move_up (w : SandWorld) (x y : Nat) : Bool × SandWorld :=
  if y = 0 then (false, w)
  else
    let up := w.is_empty x (y - 1)
    if up then (true, w.move_cell x y x (y - 1)) else (false, w)

/-- move_up_side mirrors `SandWorld::move_up_side`. -/
def move_up_side (w : SandWorld) (x y : Nat) (coin : Bool) : Bool × SandWorld :=
  if y = 0 then (false, w)
  else
    let up_left0 := decide (x > 0) && w.is_empty (x - 1) (y - 1)
    let up_right0 := w.is_empty (x + 1) (y - 1)
    let up_left := if up_left0 && up_right0 then coin else up_left0
    let up_right := if up_left0 && up_right0 then !coin else up_right0
    if up_left then (true, w.move_cell x y (x - 1) (y - 1))
    else if up_right then (true, w.move_cell x y (x + 1) (y - 1))
    else (false, w)

/-- updateCell embeds the body of the double loop in `SandWorld::update`:
the if/else-if chain trying the movement rules in mask-priority order.  A
movement rule leaves the state unchanged exactly when it returns `false`,
so evaluating each rule on `w` and keeping the state of the first
successful one is observationally the Rust control flow. -/
def updateCell (w : SandWorld) (x y : Nat) (coin : Bool) : SandWorld :=
  let properties := (w.get_cell_by_pos x y).properties
  if properties &&& CellProperties.MOVEDOWN ≠ 0 ∧ (w.move_down x y).1 then
    (w.move_down x y).2
  else if properties &&& CellProperties.MOVEDOWNSIDE ≠ 0 ∧ (w.move_down_side x y coin).1 then
    (w.move_down_side x y coin).2
  else if properties &&& CellProperties.MOVESIDE ≠ 0 ∧ (w.move_side x y coin).1 then
    (w.move_side x y coin).2
  else if properties &&& CellProperties.MOVEUP ≠ 0 ∧ (w.move_up x y).1 then
    (w.move_up x y).2
  else if properties &&& CellProperties.MOVEUPSIDE ≠ 0 ∧ (w.move_up_side x y coin).1 then
    (w.move_up_side x y coin).2
  else w

/-- update embeds the intent-scan double loop of `SandWorld::update`
(`for x in 0..width { for y in (0..height).rev() { ... } }`), with the
external keyboard/mouse handling stripped (no paint edits during the
tick).  `coin x y` is the tie-break draw available to the cell scanned at
`(x, y)` (at most one draw is consumed per cell: a rule flips the coin
only when it succeeds, and the chain stops at the first success). -/
def update (w : SandWorld) (coin : Nat → Nat → Bool) : SandWorld :=
  (List.range w.width).foldl
    (fun wx x =>
      ((List.range wx.height).reverse).foldl
        (fun wy y => updateCell wy x y (coin x y)) wx)
    w

/-- pickSource embeds `possible_sources[rand::gen_range(0, possible_sources.len())]`:
the oracle draw `r` is reduced modulo the length, so the selected index is
exactly an arbitrary in-range one. -/
def pickSource (possible_sources : List Nat) (r : Nat) : Nat :=
  possible_sources.getD (r % possible_sources.length) 0

/-- commitStep embeds the body of the `commit_cells` loop for one
`(destination, chosen source)` pair: swap when the source holds Sand and
the destination holds Water (both read at commit time), otherwise
overwrite the destination and clear the source. -/
def commitStep (cells : List Cell) (destination source : Nat) : List Cell :=
  let sc := cells.getD source Cell.empty
  let dc := cells.getD destination Cell.empty
  if sc.cls = CellClass.Sand ∧ dc.cls = CellClass.Water then
    (cells.set destination sc).set source dc
  else
    (cells.set destination sc).set source Cell.empty

/-- commitList embeds the iteration of `commit_cells` over the entries of
the `changes` hash map, in the order given by the list; `rs` is the stream
of selection draws. -/
def commitList (cells : List Cell) : List (Nat × List Nat) → List Nat → List Cell
  | [], _ => cells
  | (destination, possible_sources) :: rest, rs =>
      commitList (commitStep cells destination (pickSource possible_sources (rs.headD 0)))
        rest rs.tail

/-- commit_cells mirrors `SandWorld::commit_cells`: apply all pending moves
then clear the map. -/
def commit_cells (w : SandWorld) (rs : List Nat) : SandWorld :=
  { w with cells := commitList w.cells w.changes rs, changes := [] }

end SandWorld

/-- sourcesOf collects every candidate source index of a pending-moves
map, in order. -/
def sourcesOf (chs : List (Nat × List Nat)) : List Nat :=
  (chs.map Prod.snd).flatten

/-- materials of a grid: the multiset of the cell classes. -/
def materials (cells : List Cell) : Multiset CellClass :=
  ↑(cells.map Cell.cls)

/-- nonEmptyMaterials of a grid: the multiset of the non-Empty cell
classes (the quantity the mass-conservation property is about). -/
def nonEmptyMaterials (cells : List Cell) : Multiset CellClass :=
  (materials cells).filter (fun m => m ≠ CellClass.Empty)

/-! Basic list lemmas used throughout. -/

/-- getD after set at the same (in-range) index returns the new value. -/
theorem getD_set_self {α : Type} : ∀ (l : List α) (i : Nat) (a d : α),
    i < l.length → (l.set i a).getD i d = a := by
  intro l
  induction l with
  | nil => intro i a d h; exact absurd h (Nat.not_lt_zero i)
  | cons x t ih =>
    intro i a d h
    cases i with
    | zero => rfl
    | succ j =>
      simp only [List.set, List.getD_cons_succ]
      exact ih j a d (Nat.lt_of_succ_lt_succ h)

/-- getD after set at a different index is unchanged. -/
theorem getD_set_ne {α : Type} : ∀ (l : List α) (i j : Nat) (a d : α),
    i ≠ j → (l.set i a).getD j d = l.getD j d := by
  intro l
  induction l with
  | nil => intro i j a d _; cases i <;> rfl
  | cons x t ih =>
    intro i j a d hne
    cases i with
    | zero =>
      cases j with
      | zero => exact absurd rfl hne
      | succ j0 => rfl
    | succ i0 =>
      cases j with
      | zero => rfl
      | succ j0 =>
        simp only [List.set, List.getD_cons_succ]
        exact ih i0 j0 a d (fun h => hne (congrArg Nat.succ h))

/-- getD on replicate at an in-range index returns the replicated value. -/
theorem getD_replicate {α : Type} : ∀ (n i : Nat) (a d : α),
    i < n → (List.replicate n a).getD i d = a := by
  intro n
  induction n with
  | zero => intro i a d h; exact absurd h (Nat.not_lt_zero i)
  | succ m ih =>
    intro i a d h
    cases i with
    | zero => rfl
    | succ j =>
      simp only [List.replicate, List.getD_cons_succ]
      exact ih j a d (Nat.lt_of_succ_lt_succ h)

/-! Lemmas about `entryPush` (the embedded
`changes.entry(k).or_insert(vec![]).push(v)`). -/

/-- entryPush keeps the key list unchanged when the key is present, else
appends it. -/
theorem entryPush_keys : ∀ (ch : List (Nat × List Nat)) (k v : Nat),
    (entryPush ch k v).map Prod.fst = ch.map Prod.fst ∨
      ((entryPush ch k v).map Prod.fst = ch.map Prod.fst ++ [k] ∧
        k ∉ ch.map Prod.fst) := by
  intro ch k v
  induction ch with
  | nil => right; simp [entryPush]
  | cons p rest ih =>
    obtain ⟨k0, vs⟩ := p
    by_cases hk : k0 = k
    · left; simp [entryPush, hk]
    · cases ih with
      | inl h => left; simp only [entryPush, if_neg hk, List.map_cons, h]
      | inr h =>
        right
        constructor
        · simp only [entryPush, if_neg hk, List.map_cons, h.1, List.cons_append]
        · simp only [List.map_cons, List.mem_cons]
          intro hmem
          cases hmem with
          | inl h0 => exact hk h0.symm
          | inr h0 => exact h.2 h0

/-- entryPush preserves distinctness of the destination keys. -/
theorem entryPush_keys_nodup (ch : List (Nat × List Nat)) (k v : Nat)
    (h : (ch.map Prod.fst).Nodup) : ((entryPush ch k v).map Prod.fst).Nodup := by
  cases entryPush_keys ch k v with
  | inl he => rw [he]; exact h
  | inr he =>
    rw [he.1]
    rw [List.nodup_append]
    exact ⟨h, List.nodup_singleton k, by
      intro a ha hb
      rw [List.mem_singleton] at hb
      exact he.2 (hb ▸ ha)⟩

/-- entryPush permutes the joined source list to `v` consed on the old one. -/
theorem entryPush_sources_perm : ∀ (ch : List (Nat × List Nat)) (k v : Nat),
    (sourcesOf (entryPush ch k v)).Perm (v :: sourcesOf ch) := by
  intro ch k v
  induction ch with
  | nil => simp [entryPush, sourcesOf]
  | cons p rest ih =>
    obtain ⟨k0, vs⟩ := p
    by_cases hk : k0 = k
    · simp only [entryPush, if_pos hk, sourcesOf, List.map_cons, List.flatten_cons]
      have h1 : (vs ++ [v]) ++ (rest.map Prod.snd).flatten =
          vs ++ (v :: (rest.map Prod.snd).flatten) := by
        simp [List.append_assoc]
      rw [h1]
      exact List.perm_middle
    · simp only [entryPush, if_neg hk, sourcesOf, List.map_cons, List.flatten_cons]
      have h3 : (vs ++ sourcesOf (entryPush rest k v)).Perm
          (vs ++ (v :: sourcesOf rest)) := List.Perm.append_left vs ih
      exact h3.trans List.perm_middle

/-- entryPush only produces entries that were already present, or carry
the pushed key with the pushed value appended. -/
theorem entryPush_mem : ∀ (ch : List (Nat × List Nat)) (k v : Nat)
    (p : Nat × List Nat), p ∈ entryPush ch k v →
    p ∈ ch ∨ (p.1 = k ∧ ∃ vs, p.2 = vs ++ [v] ∧ ((k, vs) ∈ ch ∨ vs = [])) := by
  intro ch k v
  induction ch with
  | nil =>
    intro p hp
    simp only [entryPush, List.mem_singleton] at hp
    right
    rw [hp]
    exact ⟨rfl, [], by simp⟩
  | cons q rest ih =>
    obtain ⟨k0, vs0⟩ := q
    intro p hp
    by_cases hk : k0 = k
    · simp only [entryPush, if_pos hk, List.mem_cons] at hp
      cases hp with
      | inl h =>
        right
        rw [h]
        exact ⟨hk, vs0, rfl, Or.inl (by rw [hk]; exact List.mem_cons_self _ _)⟩
      | inr h => left; exact List.mem_cons_of_mem _ h
    · simp only [entryPush, if_neg hk, List.mem_cons] at hp
      cases hp with
      | inl h => left; rw [h]; exact List.mem_cons_self _ _
      | inr h =>
        cases ih p h with
        | inl h2 => left; exact List.mem_cons_of_mem _ h2
        | inr h2 =>
          right
          refine ⟨h2.1, ?_⟩
          obtain ⟨vs, hvs, hor⟩ := h2.2
          refine ⟨vs, hvs, ?_⟩
          cases hor with
          | inl h3 => exact Or.inl (List.mem_cons_of_mem _ h3)
          | inr h3 => exact Or.inr h3

/-- entryPush keeps every candidate list nonempty. -/
theorem entryPush_ne_nil (ch : List (Nat × List Nat)) (k v : Nat)
    (h : ∀ p ∈ ch, p.2 ≠ []) : ∀ p ∈ entryPush ch k v, p.2 ≠ [] := by
  intro p hp
  cases entryPush_mem ch k v p hp with
  | inl h2 => exact h p h2
  | inr h2 =>
    obtain ⟨vs, hvs, _⟩ := h2.2
    rw [hvs]
    simp

/-- pickSource selects a member of a nonempty candidate list. -/
theorem pickSource_mem (possible_sources : List Nat) (r : Nat)
    (h : possible_sources ≠ []) :
    SandWorld.pickSource possible_sources r ∈ possible_sources := by
  unfold SandWorld.pickSource
  have hlen : 0 < possible_sources.length := List.length_pos.mpr h
  have hmod : r % possible_sources.length < possible_sources.length :=
    Nat.mod_lt r hlen
  rw [List.getD_eq_getElem possible_sources 0 hmod]
  exact List.getElem_mem hmod

/-! Index arithmetic for the flat grid addressing `index = y * width + x`. -/

/-- idx_lt: an in-bounds coordinate maps to an in-range flat index. -/
theorem idx_lt (width height x y : Nat) (hx : x < width) (hy : y < height) :
    y * width + x < width * height := by
  have h1 : y * width + x < (y + 1) * width := by
    rw [Nat.succ_mul]
    exact Nat.add_lt_add_left hx _
  have h2 : (y + 1) * width ≤ height * width :=
    Nat.mul_le_mul_right width (Nat.succ_le_of_lt hy)
  calc y * width + x < (y + 1) * width := h1
    _ ≤ height * width := h2
    _ = width * height := Nat.mul_comm height width

/-- idx_inj: flat addressing is injective on coordinates with in-range x. -/
theorem idx_inj (width x1 y1 x2 y2 : Nat) (h1 : x1 < width) (h2 : x2 < width)
    (he : y1 * width + x1 = y2 * width + x2) : x1 = x2 ∧ y1 = y2 := by
  have hw : 0 < width := Nat.lt_of_le_of_lt (Nat.zero_le x1) h1
  have hx : x1 = x2 := by
    have e1 : (y1 * width + x1) % width = x1 := by
      rw [Nat.add_comm, Nat.add_mul_mod_self_right]
      exact Nat.mod_eq_of_lt h1
    have e2 : (y2 * width + x2) % width = x2 := by
      rw [Nat.add_comm, Nat.add_mul_mod_self_right]
      exact Nat.mod_eq_of_lt h2
    rw [← e1, ← e2, he]
  refine ⟨hx, ?_⟩
  have he2 : y1 * width = y2 * width := by omega
  exact Nat.eq_of_mul_eq_mul_right hw he2

/-- is_empty_true_iff characterizes `is_empty` returning true: in bounds and
holding the Empty material. -/
theorem is_empty_true_iff (w : SandWorld) (a b : Nat) :
    w.is_empty a b = true ↔
      a < w.width ∧ b < w.height ∧ (w.get_cell_by_pos a b).cls = CellClass.Empty := by
  unfold SandWorld.is_empty SandWorld.in_bounds
  by_cases hh1 : a < w.width
  · by_cases hh2 : b < w.height
    · simp [hh1, hh2]
    · simp [hh1, hh2]
  · simp [hh1]

/-- MoverOk is the common postcondition of the five movement rules applied
at scan position `(x, y)`: every field except `changes` is untouched, and
`changes` either is untouched or gains exactly one intent whose destination
is in bounds, distinct from the source position, and either Empty or
Water-under-a-Sand-source at intent time. -/
def MoverOk (w w2 : SandWorld) (x y : Nat) : Prop :=
  w2.brush = w.brush ∧ w2.width = w.width ∧ w2.height = w.height ∧
  w2.scale = w.scale ∧ w2.cells = w.cells ∧ w2.water_cells = w.water_cells ∧
  (w2.changes = w.changes ∨
    ∃ xd yd, xd < w.width ∧ yd < w.height ∧
      ((w.get_cell_by_pos xd yd).cls = CellClass.Empty ∨
        ((w.get_cell_by_pos xd yd).cls = CellClass.Water ∧
          (w.get_cell_by_pos x y).cls = CellClass.Sand)) ∧
      ¬ (xd = x ∧ yd = y) ∧
      w2.changes = entryPush w.changes (w.get_index_by_pos xd yd) (w.get_index_by_pos x y))

/-- moverOk_refl: leaving the state unchanged satisfies `MoverOk`. -/
theorem moverOk_refl (w : SandWorld) (x y : Nat) : MoverOk w w x y :=
  ⟨rfl, rfl, rfl, rfl, rfl, rfl, Or.inl rfl⟩

/-- moverOk_push: recording one intent with the stated guarantees
satisfies `MoverOk`. -/
theorem moverOk_push (w : SandWorld) (x y xd yd : Nat)
    (hxd : xd < w.width) (hyd : yd < w.height)
    (hcls : (w.get_cell_by_pos xd yd).cls = CellClass.Empty ∨
      ((w.get_cell_by_pos xd yd).cls = CellClass.Water ∧
        (w.get_cell_by_pos x y).cls = CellClass.Sand))
    (hne : ¬ (xd = x ∧ yd = y)) :
    MoverOk w (w.move_cell x y xd yd) x y :=
  ⟨rfl, rfl, rfl, rfl, rfl, rfl, Or.inr ⟨xd, yd, hxd, hyd, hcls, hne, rfl⟩⟩

/-- move_down_ok: the straight-down rule satisfies `MoverOk`. -/
theorem move_down_ok (w : SandWorld) (x y : Nat) :
    MoverOk w (w.move_down x y).2 x y := by
  unfold SandWorld.move_down
  dsimp only
  split
  · exact moverOk_refl w x y
  next hb =>
    have hb2 : w.in_bounds x (y + 1) = true := not_not.mp hb
    rw [SandWorld.in_bounds, Bool.and_eq_true, decide_eq_true_eq, decide_eq_true_eq] at hb2
    split
    next hcan =>
      refine moverOk_push w x y x (y + 1) hb2.1 hb2.2 ?_ ?_
      · cases hcan with
        | inl h => exact Or.inl h
        | inr h => exact Or.inr ⟨h.2, h.1⟩
      · intro hcon
        omega
    · exact moverOk_refl w x y

/-- side_choice_ok abstracts the shared left/right tie-break shape of
`move_side`, `move_down_side` and `move_up_side`. -/
theorem side_choice_ok (w : SandWorld) (x y xl yl xr yr : Nat) (l0 r0 coin : Bool)
    (hl : l0 = true → MoverOk w (w.move_cell x y xl yl) x y)
    (hr : r0 = true → MoverOk w (w.move_cell x y xr yr) x y) :
    MoverOk w ((if (if l0 && r0 then coin else l0) then (true, w.move_cell x y xl yl)
      else if (if l0 && r0 then !coin else r0) then (true, w.move_cell x y xr yr)
      else (false, w)).2) x y := by
  cases l0 with
  | false =>
    cases r0 with
    | false => exact moverOk_refl w x y
    | true => exact hr rfl
  | true =>
    cases r0 with
    | false => exact hl rfl
    | true =>
      cases coin with
      | false => exact hr rfl
      | true => exact hl rfl

/-- move_side_ok: the sideways rule satisfies `MoverOk`. -/
theorem move_side_ok (w : SandWorld) (x y : Nat) (coin : Bool) :
    MoverOk w (w.move_side x y coin).2 x y := by
  unfold SandWorld.move_side
  refine side_choice_ok w x y (x - 1) y (x + 1) y _ _ coin ?_ ?_
  · intro h
    rw [Bool.and_eq_true, decide_eq_true_eq] at h
    have he := (is_empty_true_iff w (x - 1) y).mp h.2
    refine moverOk_push w x y (x - 1) y he.1 he.2.1 (Or.inl he.2.2) ?_
    intro hcon
    omega
  · intro h
    have he := (is_empty_true_iff w (x + 1) y).mp h
    refine moverOk_push w x y (x + 1) y he.1 he.2.1 (Or.inl he.2.2) ?_
    intro hcon
    omega

/-- move_down_side_ok: the diagonal-down rule satisfies `MoverOk`. -/
theorem move_down_side_ok (w : SandWorld) (x y : Nat) (coin : Bool) :
    MoverOk w (w.move_down_side x y coin).2 x y := by
  unfold SandWorld.move_down_side
  refine side_choice_ok w x y (x - 1) (y + 1) (x + 1) (y + 1) _ _ coin ?_ ?_
  · intro h
    rw [Bool.and_eq_true, decide_eq_true_eq] at h
    have he := (is_empty_true_iff w (x - 1) (y + 1)).mp h.2
    refine moverOk_push w x y (x - 1) (y + 1) he.1 he.2.1 (Or.inl he.2.2) ?_
    intro hcon
    omega
  · intro h
    have he := (is_empty_true_iff w (x + 1) (y + 1)).mp h
    refine moverOk_push w x y (x + 1) (y + 1) he.1 he.2.1 (Or.inl he.2.2) ?_
    intro hcon
    omega

/-- move_up_ok: the straight-up rule satisfies `MoverOk`. -/
theorem move_up_ok (w : SandWorld) (x y : Nat) :
    MoverOk w (w.move_up x y).2 x y := by
  unfold SandWorld.move_up
  dsimp only
  split
  · exact moverOk_refl w x y
  next hy0 =>
    split
    next hup =>
      have he := (is_empty_true_iff w x (y - 1)).mp hup
      refine moverOk_push w x y x (y - 1) he.1 he.2.1 (Or.inl he.2.2) ?_
      intro hcon
      omega
    · exact moverOk_refl w x y

/-- move_up_side_ok: the diagonal-up rule satisfies `MoverOk`. -/
theorem move_up_side_ok (w : SandWorld) (x y : Nat) (coin : Bool) :
    MoverOk w (w.move_up_side x y coin).2 x y := by
  unfold SandWorld.move_up_side
  by_cases hy0 : y = 0
  · rw [if_pos hy0]
    exact moverOk_refl w x y
  · rw [if_neg hy0]
    refine side_choice_ok w x y (x - 1) (y - 1) (x + 1) (y - 1) _ _ coin ?_ ?_
    · intro h
      rw [Bool.and_eq_true, decide_eq_true_eq] at h
      have he := (is_empty_true_iff w (x - 1) (y - 1)).mp h.2
      refine moverOk_push w x y (x - 1) (y - 1) he.1 he.2.1 (Or.inl he.2.2) ?_
      intro hcon
      omega
    · intro h
      have he := (is_empty_true_iff w (x + 1) (y - 1)).mp h
      refine moverOk_push w x y (x + 1) (y - 1) he.1 he.2.1 (Or.inl he.2.2) ?_
      intro hcon
      omega

/-- updateCell_ok: one scan-position step satisfies `MoverOk`. -/
theorem updateCell_ok (w : SandWorld) (x y : Nat) (coin : Bool) :
    MoverOk w (SandWorld.updateCell w x y coin) x y := by
  unfold SandWorld.updateCell
  dsimp only
  split
  · exact move_down_ok w x y
  split
  · exact move_down_side_ok w x y coin
  split
  · exact move_side_ok w x y coin
  split
  · exact move_up_ok w x y
  split
  · exact move_up_side_ok w x y coin
  · exact moverOk_refl w x y

/-! Flattening the double scan loop of `update` into a single fold over the
list of scanned positions. -/

/-- scanStep applies `updateCell` at one scanned position. -/
def scanStep (coin : Nat → Nat → Bool) (w : SandWorld) (p : Nat × Nat) : SandWorld :=
  SandWorld.updateCell w p.1 p.2 (coin p.1 p.2)

/-- scanFold folds `updateCell` over a list of positions. -/
def scanFold (coin : Nat → Nat → Bool) (w : SandWorld) (ps : List (Nat × Nat)) : SandWorld :=
  ps.foldl (scanStep coin) w

/-- scanPositions lists the positions the `update` double loop visits, in
visit order: columns left to right, rows bottom to top. -/
def scanPositions (width height : Nat) : List (Nat × Nat) :=
  (List.range width).flatMap (fun x => ((List.range height).reverse).map (fun y => (x, y)))

/-- updateCell preserves every field except `changes`. -/
theorem updateCell_fields (w : SandWorld) (x y : Nat) (coin : Bool) :
    (SandWorld.updateCell w x y coin).brush = w.brush ∧
    (SandWorld.updateCell w x y coin).width = w.width ∧
    (SandWorld.updateCell w x y coin).height = w.height ∧
    (SandWorld.updateCell w x y coin).scale = w.scale ∧
    (SandWorld.updateCell w x y coin).cells = w.cells ∧
    (SandWorld.updateCell w x y coin).water_cells = w.water_cells := by
  have h := updateCell_ok w x y coin
  exact ⟨h.1, h.2.1, h.2.2.1, h.2.2.2.1, h.2.2.2.2.1, h.2.2.2.2.2.1⟩

/-- scanFold preserves every field except `changes`. -/
theorem scanFold_fields (coin : Nat → Nat → Bool) :
    ∀ (ps : List (Nat × Nat)) (w : SandWorld),
    (scanFold coin w ps).brush = w.brush ∧
    (scanFold coin w ps).width = w.width ∧
    (scanFold coin w ps).height = w.height ∧
    (scanFold coin w ps).scale = w.scale ∧
    (scanFold coin w ps).cells = w.cells ∧
    (scanFold coin w ps).water_cells = w.water_cells := by
  intro ps
  induction ps with
  | nil => intro w; exact ⟨rfl, rfl, rfl, rfl, rfl, rfl⟩
  | cons p ps ih =>
    intro w
    have h1 := updateCell_fields w p.1 p.2 (coin p.1 p.2)
    have h2 := ih (scanStep coin w p)
    have e : scanFold coin w (p :: ps) = scanFold coin (scanStep coin w p) ps := rfl
    rw [e]
    exact ⟨h2.1.trans h1.1, h2.2.1.trans h1.2.1, h2.2.2.1.trans h1.2.2.1,
      h2.2.2.2.1.trans h1.2.2.2.1, h2.2.2.2.2.1.trans h1.2.2.2.2.1,
      h2.2.2.2.2.2.trans h1.2.2.2.2.2⟩

/-- scanFold over appended position lists composes. -/
theorem scanFold_append (coin : Nat → Nat → Bool) (w : SandWorld)
    (ps qs : List (Nat × Nat)) :
    scanFold coin w (ps ++ qs) = scanFold coin (scanFold coin w ps) qs := by
  unfold scanFold
  rw [List.foldl_append]

/-- update_eq_scanFold: the double loop of `update` is the flat fold over
`scanPositions`. -/
theorem update_eq_scanFold (w : SandWorld) (coin : Nat → Nat → Bool) :
    SandWorld.update w coin = scanFold coin w (scanPositions w.width w.height) := by
  have aux : ∀ (xs : List Nat) (w0 : SandWorld), w0.height = w.height →
      (xs.foldl (fun wx x => ((List.range wx.height).reverse).foldl
        (fun wy y => SandWorld.updateCell wy x y (coin x y)) wx) w0) =
      scanFold coin w0 (xs.flatMap fun x => ((List.range w.height).reverse).map (fun y => (x, y))) := by
    intro xs
    induction xs with
    | nil => intro w0 _; rfl
    | cons x xs ih =>
      intro w0 hh
      have hinner : ((List.range w0.height).reverse).foldl
          (fun wy y => SandWorld.updateCell wy x y (coin x y)) w0 =
          scanFold coin w0 (((List.range w.height).reverse).map (fun y => (x, y))) := by
        rw [hh]
        unfold scanFold
        rw [List.foldl_map]
        rfl
      have hh2 : (((List.range w0.height).reverse).foldl
          (fun wy y => SandWorld.updateCell wy x y (coin x y)) w0).height = w.height := by
        rw [hinner]
        exact ((scanFold_fields coin _ w0).2.2.1).trans hh
      calc (x :: xs).foldl (fun wx x => ((List.range wx.height).reverse).foldl
            (fun wy y => SandWorld.updateCell wy x y (coin x y)) wx) w0
          = xs.foldl _ (((List.range w0.height).reverse).foldl
            (fun wy y => SandWorld.updateCell wy x y (coin x y)) w0) := rfl
        _ = scanFold coin (((List.range w0.height).reverse).foldl
            (fun wy y => SandWorld.updateCell wy x y (coin x y)) w0)
            (xs.flatMap fun x => ((List.range w.height).reverse).map (fun y => (x, y))) :=
            ih _ hh2
        _ = scanFold coin (scanFold coin w0 (((List.range w.height).reverse).map (fun y => (x, y))))
            (xs.flatMap fun x => ((List.range w.height).reverse).map (fun y => (x, y))) := by
            rw [hinner]
        _ = scanFold coin w0 ((x :: xs).flatMap fun x =>
            ((List.range w.height).reverse).map (fun y => (x, y))) := by
            rw [List.flatMap_cons, scanFold_append]
  exact aux (List.range w.width) w rfl

/-- scanPositions_mem: the scan visits exactly the in-bounds positions. -/
theorem scanPositions_mem (width height : Nat) (p : Nat × Nat) :
    p ∈ scanPositions width height ↔ p.1 < width ∧ p.2 < height := by
  unfold scanPositions
  rw [List.mem_flatMap]
  constructor
  · rintro ⟨x, hx, hp⟩
    rw [List.mem_map] at hp
    obtain ⟨y, hy, he⟩ := hp
    rw [List.mem_reverse, List.mem_range] at hy
    rw [List.mem_range] at hx
    rw [← he]
    exact ⟨hx, hy⟩
  · rintro ⟨h1, h2⟩
    refine ⟨p.1, List.mem_range.mpr h1, List.mem_map.mpr
      ⟨p.2, List.mem_reverse.mpr (List.mem_range.mpr h2), ?_⟩⟩
    exact Prod.mk.eta

/-- scanPositions_idx_nodup: the flat indices of the scanned positions are
pairwise distinct (each cell is scanned exactly once). -/
theorem scanPositions_idx_nodup (width height : Nat) :
    ((scanPositions width height).map (fun p => p.2 * width + p.1)).Nodup := by
  unfold scanPositions
  rw [List.map_flatMap]
  rw [List.nodup_flatMap]
  constructor
  · intro x hx
    rw [List.mem_range] at hx
    rw [List.map_map]
    apply List.Nodup.map
    · intro y1 y2 he
      simp only [Function.comp] at he
      have hw : 0 < width := Nat.lt_of_le_of_lt (Nat.zero_le x) hx
      have he2 : y1 * width = y2 * width := by omega
      exact Nat.eq_of_mul_eq_mul_right hw he2
    · exact List.nodup_reverse.mpr (List.nodup_range height)
  · have hne : (List.range width).Pairwise (· ≠ ·) := List.nodup_range width
    refine hne.imp_of_mem ?_
    intro x1 x2 h1 h2 hne12
    rw [List.mem_range] at h1 h2
    intro a ha1 ha2
    simp only [List.map_map, List.mem_map] at ha1 ha2
    obtain ⟨y1, _, he1⟩ := ha1
    obtain ⟨y2, _, he2⟩ := ha2
    simp only [Function.comp] at he1 he2
    have he3 : y1 * width + x1 = y2 * width + x2 := by rw [he1, he2]
    exact hne12 (idx_inj width x1 y1 x2 y2 h1 h2 he3).1

/-- sourcesOf_mem: membership in the joined source list. -/
theorem sourcesOf_mem (chs : List (Nat × List Nat)) (s : Nat) :
    s ∈ sourcesOf chs ↔ ∃ p ∈ chs, s ∈ p.2 := by
  unfold sourcesOf
  rw [List.mem_flatten]
  constructor
  · rintro ⟨l, hl, hs⟩
    rw [List.mem_map] at hl
    obtain ⟨p, hp, he⟩ := hl
    exact ⟨p, hp, he ▸ hs⟩
  · rintro ⟨p, hp, hs⟩
    exact ⟨p.2, List.mem_map.mpr ⟨p, hp, rfl⟩, hs⟩

/-- GoodPair states what the intent scan guarantees for one recorded
(destination, source) pair, relative to the (unchanged) grid at intent
time: both indices in range, distinct, and the destination either Empty or
Water targeted by a Sand source. -/
def GoodPair (cells : List Cell) (width height : Nat) (dst src : Nat) : Prop :=
  dst < width * height ∧ src < width * height ∧ src ≠ dst ∧
  ((cells.getD dst Cell.empty).cls = CellClass.Empty ∨
    ((cells.getD dst Cell.empty).cls = CellClass.Water ∧
      (cells.getD src Cell.empty).cls = CellClass.Sand))

/-- InvPack bundles the structural invariants of the pending-moves map
produced by the intent scan: distinct destinations, globally distinct
sources, nonempty candidate lists, and `GoodPair` for every pair. -/
def InvPack (cells : List Cell) (width height : Nat) (chs : List (Nat × List Nat)) : Prop :=
  (chs.map Prod.fst).Nodup ∧ (sourcesOf chs).Nodup ∧
  (∀ p ∈ chs, p.2 ≠ []) ∧
  (∀ p ∈ chs, ∀ s ∈ p.2, GoodPair cells width height p.1 s)

/-- scanFold_inv: folding the scan over distinct in-bounds positions whose
indices avoid the already-recorded sources preserves `InvPack`. -/
theorem scanFold_inv (coin : Nat → Nat → Bool) :
    ∀ (ps : List (Nat × Nat)) (w : SandWorld),
    (∀ p ∈ ps, p.1 < w.width ∧ p.2 < w.height) →
    ((ps.map fun p => p.2 * w.width + p.1).Nodup) →
    (∀ s ∈ sourcesOf w.changes, ¬ s ∈ (ps.map fun p => p.2 * w.width + p.1)) →
    InvPack w.cells w.width w.height w.changes →
    InvPack w.cells w.width w.height (scanFold coin w ps).changes := by
  intro ps
  induction ps with
  | nil => intro w _ _ _ hI; exact hI
  | cons p ps ih =>
    intro w hbnd hnd hdisj hI
    rw [List.map_cons] at hnd hdisj
    have hndt := (List.nodup_cons.mp hnd).2
    have hhead : (p.2 * w.width + p.1) ∉ ps.map (fun q => q.2 * w.width + q.1) :=
      (List.nodup_cons.mp hnd).1
    obtain ⟨hbr, hwd, hht, hsc, hcl, hwc, hch⟩ := updateCell_ok w p.1 p.2 (coin p.1 p.2)
    have hstep : scanFold coin w (p :: ps) =
        scanFold coin (SandWorld.updateCell w p.1 p.2 (coin p.1 p.2)) ps := rfl
    rw [hstep]
    have h1t : ∀ q ∈ ps, q.1 < (SandWorld.updateCell w p.1 p.2 (coin p.1 p.2)).width ∧
        q.2 < (SandWorld.updateCell w p.1 p.2 (coin p.1 p.2)).height := by
      rw [hwd, hht]
      intro q hq
      exact hbnd q (List.mem_cons_of_mem p hq)
    have h2t : ((ps.map fun q => q.2 * (SandWorld.updateCell w p.1 p.2 (coin p.1 p.2)).width + q.1).Nodup) := by
      rw [hwd]
      exact hndt
    have hInew : InvPack w.cells w.width w.height (SandWorld.updateCell w p.1 p.2 (coin p.1 p.2)).changes := by
      cases hch with
      | inl he => rw [he]; exact hI
      | inr he =>
        obtain ⟨xd, yd, hxd, hyd, hcls, hnepos, hche⟩ := he
        rw [hche]
        obtain ⟨hIk, hIs, hIne, hIg⟩ := hI
        refine ⟨entryPush_keys_nodup _ _ _ hIk, ?_, entryPush_ne_nil _ _ _ hIne, ?_⟩
        · have hperm := entryPush_sources_perm w.changes (w.get_index_by_pos xd yd)
            (w.get_index_by_pos p.1 p.2)
          have hfresh : (w.get_index_by_pos p.1 p.2) ∉ sourcesOf w.changes := by
            intro hmem
            exact hdisj _ hmem (List.mem_cons_self _ _)
          exact (hperm.symm).nodup (List.nodup_cons.mpr ⟨hfresh, hIs⟩)
        · intro q hq s hs
          rcases entryPush_mem _ _ _ q hq with hold | ⟨hq1, vs, hq2, hvs⟩
          · exact hIg q hold s hs
          · rw [hq2] at hs
            rcases List.mem_append.mp hs with hsv | hsv
            · cases hvs with
              | inl hmem =>
                have := hIg (w.get_index_by_pos xd yd, vs) hmem s hsv
                rw [hq1]
                exact this
              | inr hnil =>
                rw [hnil] at hsv
                exact absurd hsv (List.not_mem_nil s)
            · rw [List.mem_singleton] at hsv
              rw [hq1, hsv]
              have hpx : p.1 < w.width ∧ p.2 < w.height := hbnd p (List.mem_cons_self _ _)
              refine ⟨idx_lt w.width w.height xd yd hxd hyd,
                idx_lt w.width w.height p.1 p.2 hpx.1 hpx.2, ?_, ?_⟩
              · intro heq
                have hco := idx_inj w.width p.1 p.2 xd yd hpx.1 hxd heq
                exact hnepos ⟨hco.1.symm, hco.2.symm⟩
              · exact hcls
    have h3t : ∀ s ∈ sourcesOf (SandWorld.updateCell w p.1 p.2 (coin p.1 p.2)).changes,
        ¬ s ∈ (ps.map fun q => q.2 * (SandWorld.updateCell w p.1 p.2 (coin p.1 p.2)).width + q.1) := by
      rw [hwd]
      cases hch with
      | inl he =>
        rw [he]
        intro s hs hmem
        exact hdisj s hs (List.mem_cons_of_mem _ hmem)
      | inr he =>
        obtain ⟨xd, yd, _, _, _, _, hche⟩ := he
        rw [hche]
        intro s hs hmem
        have hperm := entryPush_sources_perm w.changes (w.get_index_by_pos xd yd)
          (w.get_index_by_pos p.1 p.2)
        rcases List.mem_cons.mp (hperm.mem_iff.mp hs) with hv | hv
        · rw [hv] at hmem
          exact hhead hmem
        · exact hdisj s hv (List.mem_cons_of_mem _ hmem)
    have h4t : InvPack (SandWorld.updateCell w p.1 p.2 (coin p.1 p.2)).cells
        (SandWorld.updateCell w p.1 p.2 (coin p.1 p.2)).width
        (SandWorld.updateCell w p.1 p.2 (coin p.1 p.2)).height
        (SandWorld.updateCell w p.1 p.2 (coin p.1 p.2)).changes := by
      rw [hcl, hwd, hht]
      exact hInew
    have hcon := ih (SandWorld.updateCell w p.1 p.2 (coin p.1 p.2)) h1t h2t h3t h4t
    rw [hcl, hwd, hht] at hcon
    exact hcon

/-! Multiset bookkeeping for mass conservation. -/

/-- materials_cons: the class multiset of a cons. -/
theorem materials_cons (x : Cell) (t : List Cell) :
    materials (x :: t) = (Cell.cls x) ::ₘ materials t := by
  unfold materials
  rw [List.map_cons]
  exact (Multiset.cons_coe _ _).symm

/-- materials_cons_set: replacing one in-range cell exchanges its class for
the new one in the class multiset. -/
theorem materials_cons_set : ∀ (l : List Cell) (i : Nat) (a : Cell), i < l.length →
    (Cell.cls (l.getD i Cell.empty)) ::ₘ materials (l.set i a) =
      (Cell.cls a) ::ₘ materials l := by
  intro l
  induction l with
  | nil => intro i a h; exact absurd h (Nat.not_lt_zero i)
  | cons x t ih =>
    intro i a h
    cases i with
    | zero =>
      show (Cell.cls x) ::ₘ materials (a :: t) = (Cell.cls a) ::ₘ materials (x :: t)
      rw [materials_cons, materials_cons, Multiset.cons_swap]
    | succ j =>
      show (Cell.cls (t.getD j Cell.empty)) ::ₘ materials (x :: t.set j a) =
        (Cell.cls a) ::ₘ materials (x :: t)
      rw [materials_cons, materials_cons, Multiset.cons_swap,
        ih j a (Nat.lt_of_succ_lt_succ h), Multiset.cons_swap]

/-- materials_exchange: a two-index write that exchanges the classes of the
two positions preserves the class multiset. -/
theorem materials_exchange (l : List Cell) (i j : Nat) (a b : Cell)
    (hi : i < l.length) (hj : j < l.length) (hij : i ≠ j)
    (ha : a.cls = (l.getD j Cell.empty).cls) (hb : b.cls = (l.getD i Cell.empty).cls) :
    materials ((l.set i a).set j b) = materials l := by
  have h1 := materials_cons_set (l.set i a) j b (by rw [List.length_set]; exact hj)
  rw [getD_set_ne l i j a Cell.empty hij] at h1
  have h2 := materials_cons_set l i a hi
  have h3 : (Cell.cls (l.getD j Cell.empty)) ::ₘ materials ((l.set i a).set j b) =
      (Cell.cls (l.getD j Cell.empty)) ::ₘ materials l := by
    rw [h1, hb, h2, ha]
  exact (Multiset.cons_inj_right _).mp h3

/-! Pointwise facts about `commitStep`. -/

/-- commitStep_length: a commit step does not change the grid size. -/
theorem commitStep_length (cells : List Cell) (d s : Nat) :
    (SandWorld.commitStep cells d s).length = cells.length := by
  unfold SandWorld.commitStep
  dsimp only
  split <;> simp [List.length_set]

/-- commitStep_getD_other: a commit step writes only at the destination and
the chosen source. -/
theorem commitStep_getD_other (cells : List Cell) (d s q : Nat)
    (h1 : q ≠ d) (h2 : q ≠ s) :
    (SandWorld.commitStep cells d s).getD q Cell.empty = cells.getD q Cell.empty := by
  unfold SandWorld.commitStep
  dsimp only
  split
  · rw [getD_set_ne _ s q _ _ (Ne.symm h2), getD_set_ne _ d q _ _ (Ne.symm h1)]
  · rw [getD_set_ne _ s q _ _ (Ne.symm h2), getD_set_ne _ d q _ _ (Ne.symm h1)]

/-- commitStep_getD_dest: after a commit step the destination holds the
cell the source held just before the step (in both branches). -/
theorem commitStep_getD_dest (cells : List Cell) (d s : Nat)
    (hd : d < cells.length) (hne : s ≠ d) :
    (SandWorld.commitStep cells d s).getD d Cell.empty = cells.getD s Cell.empty := by
  unfold SandWorld.commitStep
  dsimp only
  split
  · rw [getD_set_ne _ s d _ _ hne]
    exact getD_set_self _ d _ _ hd
  · rw [getD_set_ne _ s d _ _ hne]
    exact getD_set_self _ d _ _ hd

/-- commitStep_getD_source_swap: in the swap branch the source receives
the old destination cell. -/
theorem commitStep_getD_source_swap (cells : List Cell) (d s : Nat)
    (hs : s < cells.length)
    (hcond : (cells.getD s Cell.empty).cls = CellClass.Sand ∧
      (cells.getD d Cell.empty).cls = CellClass.Water) :
    (SandWorld.commitStep cells d s).getD s Cell.empty = cells.getD d Cell.empty := by
  unfold SandWorld.commitStep
  dsimp only
  rw [if_pos hcond]
  exact getD_set_self _ s _ _ (by rw [List.length_set]; exact hs)

/-- commitStep_getD_source_move: in the displacement branch the source is
reset to the empty cell. -/
theorem commitStep_getD_source_move (cells : List Cell) (d s : Nat)
    (hs : s < cells.length)
    (hcond : ¬ ((cells.getD s Cell.empty).cls = CellClass.Sand ∧
      (cells.getD d Cell.empty).cls = CellClass.Water)) :
    (SandWorld.commitStep cells d s).getD s Cell.empty = Cell.empty := by
  unfold SandWorld.commitStep
  dsimp only
  rw [if_neg hcond]
  exact getD_set_self _ s _ _ (by rw [List.length_set]; exact hs)

/-- commitStep_materials: a commit step whose destination is Empty at
commit time, or which satisfies the swap condition, preserves the class
multiset. -/
theorem commitStep_materials (cells : List Cell) (d s : Nat)
    (hd : d < cells.length) (hs : s < cells.length) (hne : s ≠ d)
    (hcase : ((cells.getD s Cell.empty).cls = CellClass.Sand ∧
        (cells.getD d Cell.empty).cls = CellClass.Water) ∨
      (cells.getD d Cell.empty).cls = CellClass.Empty) :
    materials (SandWorld.commitStep cells d s) = materials cells := by
  unfold SandWorld.commitStep
  dsimp only
  split
  · exact materials_exchange cells d s (cells.getD s Cell.empty) (cells.getD d Cell.empty)
      hd hs (Ne.symm hne) rfl rfl
  next hsw =>
    have hde : (cells.getD d Cell.empty).cls = CellClass.Empty := by
      cases hcase with
      | inl h => exact absurd h hsw
      | inr h => exact h
    exact materials_exchange cells d s (cells.getD s Cell.empty) Cell.empty
      hd hs (Ne.symm hne) rfl hde.symm

/-- sourcesOf_cons unfolds the joined source list of a cons. -/
theorem sourcesOf_cons (d : Nat) (ss : List Nat) (rest : List (Nat × List Nat)) :
    sourcesOf ((d, ss) :: rest) = ss ++ sourcesOf rest := rfl

/-- commitList_materials: under the invariants the intent scan establishes
(distinct destinations, globally distinct sources, nonempty candidate
lists, in-range indices, destinations Empty-or-Water at intent time, Sand
sources behind every Water destination) and the evolving-grid facts
relating the commit-time grid `cells` to the intent-time grid `orig`,
committing every entry preserves the multiset of cell classes. -/
theorem commitList_materials :
    ∀ (chs : List (Nat × List Nat)) (cells orig : List Cell) (rs : List Nat),
    cells.length = orig.length →
    (chs.map Prod.fst).Nodup →
    (sourcesOf chs).Nodup →
    (∀ p ∈ chs, p.2 ≠ []) →
    (∀ p ∈ chs, p.1 < orig.length) →
    (∀ p ∈ chs, ∀ s ∈ p.2, s < orig.length ∧ s ≠ p.1) →
    (∀ p ∈ chs, (orig.getD p.1 Cell.empty).cls = CellClass.Empty ∨
      (orig.getD p.1 Cell.empty).cls = CellClass.Water) →
    (∀ p ∈ chs, (orig.getD p.1 Cell.empty).cls = CellClass.Water →
      ∀ s ∈ p.2, (orig.getD s Cell.empty).cls = CellClass.Sand) →
    (∀ p ∈ chs, (orig.getD p.1 Cell.empty).cls = CellClass.Empty →
      (cells.getD p.1 Cell.empty).cls = CellClass.Empty) →
    (∀ p ∈ chs, (orig.getD p.1 Cell.empty).cls = CellClass.Water →
      (cells.getD p.1 Cell.empty).cls = CellClass.Water ∨
        (cells.getD p.1 Cell.empty).cls = CellClass.Empty) →
    (∀ p ∈ chs, ∀ s ∈ p.2, (orig.getD s Cell.empty).cls = CellClass.Sand →
      (cells.getD s Cell.empty).cls = CellClass.Sand) →
    materials (SandWorld.commitList cells chs rs) = materials cells := by
  intro chs
  induction chs with
  | nil => intro cells orig rs _ _ _ _ _ _ _ _ _ _ _; rfl
  | cons hd rest ih =>
    obtain ⟨d, ss⟩ := hd
    intro cells orig rs hlen hknd hsnd hne hdlt hslt hdew hws hg3 hg4 hg2
    have hmemhd : (d, ss) ∈ (d, ss) :: rest := List.mem_cons_self _ _
    have hssne : ss ≠ [] := hne _ hmemhd
    have hs := pickSource_mem ss (rs.headD 0) hssne
    have hdlt0 : d < cells.length := by rw [hlen]; exact hdlt _ hmemhd
    obtain ⟨hslt0, hsd⟩ := hslt _ hmemhd _ hs
    have hslt1 : SandWorld.pickSource ss (rs.headD 0) < cells.length := by
      rw [hlen]; exact hslt0
    rw [sourcesOf_cons, List.nodup_append] at hsnd
    rw [List.map_cons, List.nodup_cons] at hknd
    have hunf : SandWorld.commitList cells ((d, ss) :: rest) rs =
        SandWorld.commitList
          (SandWorld.commitStep cells d (SandWorld.pickSource ss (rs.headD 0))) rest rs.tail := rfl
    rw [hunf]
    -- the committed cell index
    set s := SandWorld.pickSource ss (rs.headD 0) with hsdef
    -- step facts, by cases on the intent-time class of the destination
    cases hdew _ hmemhd with
    | inl hdE =>
      -- destination Empty at intent time: still Empty at commit time, the
      -- step is a displacement into an Empty cell
      have hcE : (cells.getD d Cell.empty).cls = CellClass.Empty := hg3 _ hmemhd hdE
      have hnosw : ¬ ((cells.getD s Cell.empty).cls = CellClass.Sand ∧
          (cells.getD d Cell.empty).cls = CellClass.Water) := by
        intro hcon
        rw [hcE] at hcon
        exact absurd hcon.2 (by intro h; cases h)
      have hstep := commitStep_materials cells d s hdlt0 hslt1 hsd (Or.inr hcE)
      have hsrc : (SandWorld.commitStep cells d s).getD s Cell.empty = Cell.empty :=
        commitStep_getD_source_move cells d s hslt1 hnosw
      have htail := ih (SandWorld.commitStep cells d s) orig rs.tail
        ((commitStep_length cells d s).trans hlen)
        hknd.2 hsnd.2.1
        (fun p hp => hne p (List.mem_cons_of_mem _ hp))
        (fun p hp => hdlt p (List.mem_cons_of_mem _ hp))
        (fun p hp => hslt p (List.mem_cons_of_mem _ hp))
        (fun p hp => hdew p (List.mem_cons_of_mem _ hp))
        (fun p hp => hws p (List.mem_cons_of_mem _ hp))
        ?_ ?_ ?_
      · rw [htail, hstep]
      · -- maintenance of: orig-Empty destinations stay Empty
        intro p hp hpE
        have hpd : p.1 ≠ d := by
          intro hcon
          have hmm : p.1 ∈ rest.map Prod.fst := List.mem_map_of_mem Prod.fst hp
          rw [hcon] at hmm
          exact hknd.1 hmm
        by_cases hps : p.1 = s
        · rw [hps, hsrc]
          rfl
        · rw [commitStep_getD_other cells d s p.1 hpd hps]
          exact hg3 p (List.mem_cons_of_mem _ hp) hpE
      · -- maintenance of: orig-Water destinations stay Water-or-Empty
        intro p hp hpW
        have hpd : p.1 ≠ d := by
          intro hcon
          have hmm : p.1 ∈ rest.map Prod.fst := List.mem_map_of_mem Prod.fst hp
          rw [hcon] at hmm
          exact hknd.1 hmm
        by_cases hps : p.1 = s
        · rw [hps, hsrc]
          exact Or.inr rfl
        · rw [commitStep_getD_other cells d s p.1 hpd hps]
          exact hg4 p (List.mem_cons_of_mem _ hp) hpW
      · -- maintenance of: orig-Sand sources stay Sand
        intro p hp q hq hqS
        have hqs : q ≠ s := by
          intro hcon
          refine hsnd.2.2 hs ?_
          rw [← hcon]
          exact (sourcesOf_mem rest q).mpr ⟨p, hp, hq⟩
        have hqd : q ≠ d := by
          intro hcon
          rw [hcon, hdE] at hqS
          cases hqS
        rw [commitStep_getD_other cells d s q hqd hqs]
        exact hg2 p (List.mem_cons_of_mem _ hp) q hq hqS
    | inr hdW =>
      -- destination Water at intent time: its sources are Sand, the step
      -- is either the sand/water swap or a displacement into Empty
      have hsS : (orig.getD s Cell.empty).cls = CellClass.Sand := hws _ hmemhd hdW _ hs
      have hcS : (cells.getD s Cell.empty).cls = CellClass.Sand := hg2 _ hmemhd _ hs hsS
      have hcase : ((cells.getD s Cell.empty).cls = CellClass.Sand ∧
          (cells.getD d Cell.empty).cls = CellClass.Water) ∨
          (cells.getD d Cell.empty).cls = CellClass.Empty := by
        cases hg4 _ hmemhd hdW with
        | inl h => exact Or.inl ⟨hcS, h⟩
        | inr h => exact Or.inr h
      have hstep := commitStep_materials cells d s hdlt0 hslt1 hsd hcase
      have hsrccls : ((SandWorld.commitStep cells d s).getD s Cell.empty).cls = CellClass.Water ∨
          ((SandWorld.commitStep cells d s).getD s Cell.empty).cls = CellClass.Empty := by
        by_cases hsw : ((cells.getD s Cell.empty).cls = CellClass.Sand ∧
            (cells.getD d Cell.empty).cls = CellClass.Water)
        · rw [commitStep_getD_source_swap cells d s hslt1 hsw]
          exact Or.inl hsw.2
        · rw [commitStep_getD_source_move cells d s hslt1 hsw]
          exact Or.inr rfl
      have htail := ih (SandWorld.commitStep cells d s) orig rs.tail
        ((commitStep_length cells d s).trans hlen)
        hknd.2 hsnd.2.1
        (fun p hp => hne p (List.mem_cons_of_mem _ hp))
        (fun p hp => hdlt p (List.mem_cons_of_mem _ hp))
        (fun p hp => hslt p (List.mem_cons_of_mem _ hp))
        (fun p hp => hdew p (List.mem_cons_of_mem _ hp))
        (fun p hp => hws p (List.mem_cons_of_mem _ hp))
        ?_ ?_ ?_
      · rw [htail, hstep]
      · -- maintenance of: orig-Empty destinations stay Empty
        intro p hp hpE
        have hpd : p.1 ≠ d := by
          intro hcon
          have hmm : p.1 ∈ rest.map Prod.fst := List.mem_map_of_mem Prod.fst hp
          rw [hcon] at hmm
          exact hknd.1 hmm
        have hps : p.1 ≠ s := by
          intro hcon
          rw [hcon, hsS] at hpE
          cases hpE
        rw [commitStep_getD_other cells d s p.1 hpd hps]
        exact hg3 p (List.mem_cons_of_mem _ hp) hpE
      · -- maintenance of: orig-Water destinations stay Water-or-Empty
        intro p hp hpW
        have hpd : p.1 ≠ d := by
          intro hcon
          have hmm : p.1 ∈ rest.map Prod.fst := List.mem_map_of_mem Prod.fst hp
          rw [hcon] at hmm
          exact hknd.1 hmm
        by_cases hps : p.1 = s
        · rw [hps]
          exact hsrccls
        · rw [commitStep_getD_other cells d s p.1 hpd hps]
          exact hg4 p (List.mem_cons_of_mem _ hp) hpW
      · -- maintenance of: orig-Sand sources stay Sand
        intro p hp q hq hqS
        have hqs : q ≠ s := by
          intro hcon
          refine hsnd.2.2 hs ?_
          rw [← hcon]
          exact (sourcesOf_mem rest q).mpr ⟨p, hp, hq⟩
        have hqd : q ≠ d := by
          intro hcon
          rw [hcon, hdW] at hqS
          cases hqS
        rw [commitStep_getD_other cells d s q hqd hqs]
        exact hg2 p (List.mem_cons_of_mem _ hp) q hq hqS

/-- update_fields: the intent scan never touches any field but `changes`
(in particular the grid is only read during a scan). -/
theorem update_fields (w : SandWorld) (coin : Nat → Nat → Bool) :
    (SandWorld.update w coin).cells = w.cells ∧
    (SandWorld.update w coin).width = w.width ∧
    (SandWorld.update w coin).height = w.height := by
  rw [update_eq_scanFold]
  have h := scanFold_fields coin (scanPositions w.width w.height) w
  exact ⟨h.2.2.2.2.1, h.2.1, h.2.2.1⟩

/-- update_inv: a tick's intent scan started with an empty pending-moves
map establishes all structural invariants of `InvPack`. -/
theorem update_inv (w : SandWorld) (coin : Nat → Nat → Bool) (h0 : w.changes = []) :
    InvPack w.cells w.width w.height (SandWorld.update w coin).changes := by
  rw [update_eq_scanFold]
  apply scanFold_inv coin (scanPositions w.width w.height) w
  · intro p hp
    exact (scanPositions_mem _ _ p).mp hp
  · exact scanPositions_idx_nodup w.width w.height
  · rw [h0]
    intro s hs
    simp [sourcesOf] at hs
  · rw [h0]
    refine ⟨List.nodup_nil, ?_, ?_, ?_⟩
    · simp [sourcesOf]
    · intro p hp; cases hp
    · intro p hp; cases hp

/-- invPack_perm: the invariants are preserved by reordering the entries
of the pending-moves map (the hash-map iteration order is arbitrary). -/
theorem invPack_perm (cells : List Cell) (width height : Nat)
    (chs chs2 : List (Nat × List Nat)) (hp : chs2.Perm chs)
    (h : InvPack cells width height chs) : InvPack cells width height chs2 := by
  obtain ⟨h1, h2, h3, h4⟩ := h
  refine ⟨((hp.map Prod.fst).symm).nodup h1, ?_, ?_, ?_⟩
  · exact (((hp.map Prod.snd).flatten).symm).nodup h2
  · intro p hp2
    exact h3 p (hp.mem_iff.mp hp2)
  · intro p hp2
    exact h4 p (hp.mem_iff.mp hp2)

/-- tick_materials: one full tick (intent scan from an empty pending-moves
map, then commit over the entries in any order, with any random draws)
preserves the multiset of cell classes of a well-formed grid. -/
theorem tick_materials (w : SandWorld) (coin : Nat → Nat → Bool)
    (chs : List (Nat × List Nat)) (rs : List Nat)
    (h0 : w.changes = []) (hwf : w.cells.length = w.width * w.height)
    (hperm : chs.Perm (SandWorld.update w coin).changes) :
    materials (SandWorld.commitList (SandWorld.update w coin).cells chs rs) =
      materials w.cells := by
  obtain ⟨hcl, _, _⟩ := update_fields w coin
  have hI : InvPack w.cells w.width w.height chs :=
    invPack_perm _ _ _ _ _ hperm (update_inv w coin h0)
  obtain ⟨hIk, hIs, hIne, hIg⟩ := hI
  rw [hcl]
  apply commitList_materials chs w.cells w.cells rs rfl hIk hIs hIne
  · intro p hp
    obtain ⟨s, hs⟩ := List.exists_mem_of_ne_nil p.2 (hIne p hp)
    have := (hIg p hp s hs).1
    rw [hwf]
    exact this
  · intro p hp s hs
    have hg := hIg p hp s hs
    rw [hwf]
    exact ⟨hg.2.1, hg.2.2.1⟩
  · intro p hp
    obtain ⟨s, hs⟩ := List.exists_mem_of_ne_nil p.2 (hIne p hp)
    cases (hIg p hp s hs).2.2.2 with
    | inl h => exact Or.inl h
    | inr h => exact Or.inr h.1
  · intro p hp hW s hs
    cases (hIg p hp s hs).2.2.2 with
    | inl h =>
      rw [hW] at h
      cases h
    | inr h => exact h.2
  · intro p _ h
    exact h
  · intro p _ h
    exact Or.inl h
  · intro p _ s _ h
    exact h

/-- commitList_frame: a position that is neither a destination nor a
candidate source of any remaining entry is never written by the commit
loop. -/
theorem commitList_frame :
    ∀ (chs : List (Nat × List Nat)) (cells : List Cell) (rs : List Nat) (q : Nat),
    (∀ p ∈ chs, p.2 ≠ []) →
    (∀ p ∈ chs, p.1 ≠ q) →
    (∀ p ∈ chs, ∀ s ∈ p.2, s ≠ q) →
    (SandWorld.commitList cells chs rs).getD q Cell.empty = cells.getD q Cell.empty := by
  intro chs
  induction chs with
  | nil => intro cells rs q _ _ _; rfl
  | cons hd rest ih =>
    obtain ⟨d, ss⟩ := hd
    intro cells rs q hne hd1 hs1
    have hmemhd : (d, ss) ∈ (d, ss) :: rest := List.mem_cons_self _ _
    have hsmem := pickSource_mem ss (rs.headD 0) (hne _ hmemhd)
    have hunf : SandWorld.commitList cells ((d, ss) :: rest) rs =
        SandWorld.commitList
          (SandWorld.commitStep cells d (SandWorld.pickSource ss (rs.headD 0))) rest rs.tail := rfl
    rw [hunf]
    rw [ih _ rs.tail q (fun p hp => hne p (List.mem_cons_of_mem _ hp))
      (fun p hp => hd1 p (List.mem_cons_of_mem _ hp))
      (fun p hp => hs1 p (List.mem_cons_of_mem _ hp))]
    exact commitStep_getD_other cells d _ q
      (Ne.symm (hd1 _ hmemhd)) (Ne.symm (hs1 _ hmemhd _ hsmem))

/-- commitList_entry: when no index is simultaneously a candidate source
and a destination, each destination ends up holding exactly the cell one
of its candidates held before the commit phase, and every non-chosen
candidate is left untouched. -/
theorem commitList_entry :
    ∀ (chs : List (Nat × List Nat)) (cells : List Cell) (rs : List Nat),
    (chs.map Prod.fst).Nodup →
    (sourcesOf chs).Nodup →
    (∀ p ∈ chs, p.2 ≠ []) →
    (∀ p ∈ chs, p.1 < cells.length) →
    (∀ p ∈ chs, ∀ s ∈ p.2, s ∉ chs.map Prod.fst) →
    ∀ p ∈ chs, ∃ s ∈ p.2,
      (SandWorld.commitList cells chs rs).getD p.1 Cell.empty = cells.getD s Cell.empty ∧
      ∀ s2 ∈ p.2, s2 ≠ s →
        (SandWorld.commitList cells chs rs).getD s2 Cell.empty = cells.getD s2 Cell.empty := by
  intro chs
  induction chs with
  | nil => intro cells rs _ _ _ _ _ p hp; cases hp
  | cons hd rest ih =>
    obtain ⟨d, ss⟩ := hd
    intro cells rs hknd hsnd hne hdlt hnov p hp
    have hmemhd : (d, ss) ∈ (d, ss) :: rest := List.mem_cons_self _ _
    have hsmem := pickSource_mem ss (rs.headD 0) (hne _ hmemhd)
    rw [List.map_cons, List.nodup_cons] at hknd
    rw [sourcesOf_cons, List.nodup_append] at hsnd
    have hunf : SandWorld.commitList cells ((d, ss) :: rest) rs =
        SandWorld.commitList
          (SandWorld.commitStep cells d (SandWorld.pickSource ss (rs.headD 0))) rest rs.tail := rfl
    have hsrcd : ∀ q ∈ ((d, ss) :: rest), ∀ s2 ∈ q.2, s2 ≠ d := by
      intro q hq s2 hs2 hcon
      have hnv := hnov q hq s2 hs2
      rw [List.map_cons] at hnv
      exact hnv (hcon ▸ List.mem_cons_self d _)
    have hsrcrest : ∀ q ∈ ((d, ss) :: rest), ∀ s2 ∈ q.2, s2 ∉ rest.map Prod.fst := by
      intro q hq s2 hs2 hcon
      have hnv := hnov q hq s2 hs2
      rw [List.map_cons] at hnv
      exact hnv (List.mem_cons_of_mem d hcon)
    have hnovt : ∀ q ∈ rest, ∀ s2 ∈ q.2, s2 ∉ rest.map Prod.fst := by
      intro q hq
      exact hsrcrest q (List.mem_cons_of_mem _ hq)
    cases List.mem_cons.mp hp with
    | inl hph =>
      rw [hph]
      dsimp only
      refine ⟨SandWorld.pickSource ss (rs.headD 0), hsmem, ?_, ?_⟩
      · rw [hunf]
        have hfr1 : ∀ q ∈ rest, q.1 ≠ d := by
          intro q hq hcon
          have hmm : q.1 ∈ rest.map Prod.fst := List.mem_map_of_mem Prod.fst hq
          rw [hcon] at hmm
          exact hknd.1 hmm
        have hfr2 : ∀ q ∈ rest, ∀ s2 ∈ q.2, s2 ≠ d := by
          intro q hq
          exact hsrcd q (List.mem_cons_of_mem _ hq)
        rw [commitList_frame rest _ rs.tail d
          (fun q hq => hne q (List.mem_cons_of_mem _ hq)) hfr1 hfr2]
        exact commitStep_getD_dest cells d _ (hdlt _ hmemhd) (hsrcd _ hmemhd _ hsmem)
      · intro s2 hs2 hs2ne
        rw [hunf]
        have hfr1 : ∀ q ∈ rest, q.1 ≠ s2 := by
          intro q hq hcon
          have hnr := hsrcrest _ hmemhd s2 hs2
          exact hnr (hcon ▸ List.mem_map_of_mem Prod.fst hq)
        have hfr2 : ∀ q ∈ rest, ∀ s3 ∈ q.2, s3 ≠ s2 := by
          intro q hq s3 hs3 hcon
          have hmem3 : s3 ∈ sourcesOf rest := (sourcesOf_mem rest s3).mpr ⟨q, hq, hs3⟩
          exact hsnd.2.2 hs2 (hcon ▸ hmem3)
        rw [commitList_frame rest _ rs.tail s2
          (fun q hq => hne q (List.mem_cons_of_mem _ hq)) hfr1 hfr2]
        exact commitStep_getD_other cells d _ s2 (hsrcd _ hmemhd s2 hs2) hs2ne
    | inr hpt =>
      rw [hunf]
      have hlen2 : ∀ q ∈ rest, q.1 <
          (SandWorld.commitStep cells d (SandWorld.pickSource ss (rs.headD 0))).length := by
        intro q hq
        rw [commitStep_length]
        exact hdlt q (List.mem_cons_of_mem _ hq)
      obtain ⟨s, hsmem2, hdst, hoth⟩ := ih
        (SandWorld.commitStep cells d (SandWorld.pickSource ss (rs.headD 0))) rs.tail
        hknd.2 hsnd.2.1
        (fun q hq => hne q (List.mem_cons_of_mem _ hq))
        hlen2 hnovt p hpt
      have hchg : ∀ s3 ∈ p.2,
          (SandWorld.commitStep cells d (SandWorld.pickSource ss (rs.headD 0))).getD s3 Cell.empty
            = cells.getD s3 Cell.empty := by
        intro s3 hs3
        apply commitStep_getD_other
        · exact hsrcd p (List.mem_cons_of_mem _ hpt) s3 hs3
        · intro hcon
          have hmem3 : s3 ∈ sourcesOf rest := (sourcesOf_mem rest s3).mpr ⟨p, hpt, hs3⟩
          exact hsnd.2.2 hsmem (hcon ▸ hmem3)
      refine ⟨s, hsmem2, ?_, ?_⟩
      · rw [hdst, hchg s hsmem2]
      · intro s2 hs2 hs2ne
        rw [hoth s2 hs2 hs2ne, hchg s2 hs2]

/-- moverOk_changes_super: any pending-moves entry after a movement rule
ran was either already present or carries an in-bounds destination. -/
theorem moverOk_changes_super (w w2 : SandWorld) (x y : Nat) (h : MoverOk w w2 x y) :
    ∀ p ∈ w2.changes, p ∈ w.changes ∨
      ∃ xd yd, xd < w.width ∧ yd < w.height ∧ p.1 = w.get_index_by_pos xd yd := by
  intro p hp
  rcases h.2.2.2.2.2.2 with he | ⟨xd, yd, hxd, hyd, _, _, he⟩
  · rw [he] at hp
    exact Or.inl hp
  · rw [he] at hp
    rcases entryPush_mem _ _ _ p hp with h1 | h2
    · exact Or.inl h1
    · exact Or.inr ⟨xd, yd, hxd, hyd, h2.1⟩

/-- worldC5 is a 3×2 grid with Water at (1, 0) over Rock at (1, 1), both
lateral and both diagonal-down destinations free. -/
def worldC5 : SandWorld :=
  { brush := Cell.sand, width := 3, height := 2, scale := 1
    cells := [Cell.empty, Cell.water, Cell.empty, Cell.empty, Cell.rock, Cell.empty]
    changes := [], water_cells := 0 }

/-- worldC7 is a 1×2 grid with Sand at (0, 0) above an Empty cell. -/
def worldC7 : SandWorld :=
  { brush := Cell.sand, width := 1, height := 2, scale := 1
    cells := [Cell.sand, Cell.empty], changes := [], water_cells := 0 }

/-- C1: one tick — the full intent scan over all cells followed by
`commit_cells` over the pending entries enumerated in an arbitrary
(hash-map) order, with arbitrary random draws and no paint edits —
preserves the multiset of non-Empty materials of a well-formed grid. -/
theorem claim_C1_mass_conservation (w : SandWorld) (coin : Nat → Nat → Bool)
    (chs : List (Nat × List Nat)) (rs : List Nat)
    (h0 : w.changes = []) (hwf : w.cells.length = w.width * w.height)
    (hperm : chs.Perm (SandWorld.update w coin).changes) :
    nonEmptyMaterials ((SandWorld.commit_cells
      { SandWorld.update w coin with changes := chs } rs).cells) =
      nonEmptyMaterials w.cells := by
  have he : (SandWorld.commit_cells { SandWorld.update w coin with changes := chs } rs).cells =
      SandWorld.commitList (SandWorld.update w coin).cells chs rs := rfl
  rw [he]
  unfold nonEmptyMaterials
  rw [tick_materials w coin chs rs h0 hwf hperm]

/-- C1 witness: a concrete full tick on a 2×2 grid. -/
theorem claim_C1_witness :
    nonEmptyMaterials ((SandWorld.commit_cells
      { SandWorld.update (SandWorld.new 2 2 1) (fun _ _ => true) with
        changes := (SandWorld.update (SandWorld.new 2 2 1) (fun _ _ => true)).changes } []).cells) =
      nonEmptyMaterials (SandWorld.new 2 2 1).cells :=
  claim_C1_mass_conservation (SandWorld.new 2 2 1) (fun _ _ => true)
    ((SandWorld.update (SandWorld.new 2 2 1) (fun _ _ => true)).changes) [] rfl (by decide)
    (List.Perm.refl _)

/-- C2 counterexample: immediately after `new`, the cell at (0, 0) is not
Empty (the constructor plants a Sand cell at index 0). -/
theorem claim_C2_counterexample :
    ¬ (((SandWorld.new 3 3 1).get_cell_by_pos 0 0).cls = CellClass.Empty) := by decide

/-- C2 amended: `new(width, height)` yields a grid whose cell at (0, 0)
holds Sand and whose every other in-range cell holds Empty. -/
theorem claim_C2_amended (width height scale x y : Nat) (hx : x < width) (hy : y < height) :
    ((SandWorld.new width height scale).get_cell_by_pos x y).cls =
      (if x = 0 ∧ y = 0 then CellClass.Sand else CellClass.Empty) := by
  unfold SandWorld.new SandWorld.get_cell_by_pos
  dsimp only
  have hw : 0 < width := Nat.lt_of_le_of_lt (Nat.zero_le x) hx
  have hh : 0 < height := Nat.lt_of_le_of_lt (Nat.zero_le y) hy
  by_cases h0 : y * width + x = 0
  · have hx0 : x = 0 := by omega
    have hyw : y * width = 0 := by omega
    have hy0 : y = 0 := by
      rcases Nat.mul_eq_zero.mp hyw with h | h
      · exact h
      · omega
    rw [h0, if_pos ⟨hx0, hy0⟩]
    rw [getD_set_self _ 0 _ _ (by rw [List.length_replicate]; exact Nat.mul_pos hw hh)]
  · have hne : ¬ (x = 0 ∧ y = 0) := by
      intro hcon
      apply h0
      rw [hcon.1, hcon.2]
      simp
    rw [if_neg hne]
    rw [getD_set_ne _ 0 (y * width + x) _ _ (fun h => h0 h.symm)]
    rw [getD_replicate (width * height) (y * width + x) _ _ (idx_lt width height x y hx hy)]
    rfl

/-- C2 witness: a non-origin cell of a fresh 3×3 grid is Empty. -/
theorem claim_C2_witness :
    ((SandWorld.new 3 3 1).get_cell_by_pos 1 1).cls =
      (if (1 : Nat) = 0 ∧ (1 : Nat) = 0 then CellClass.Sand else CellClass.Empty) :=
  claim_C2_amended 3 3 1 1 1 (by decide) (by decide)

/-- C3 counterexample: with Sand over Water over a free cell and both
intents pending, committing the sand/water swap first makes the second
destination receive Sand although its only candidate held Water when the
intent was registered. -/
theorem claim_C3_counterexample :
    ¬ (((SandWorld.commitList [Cell.sand, Cell.water, Cell.empty]
        [(1, [0]), (2, [1])] [0, 0]).getD 2 Cell.empty).cls
      = (([Cell.sand, Cell.water, Cell.empty] : List Cell).getD 1 Cell.empty).cls) := by decide

/-- C3 amended: provided no index is simultaneously a candidate source and
a destination of the pending-moves map (and destinations are distinct,
sources globally distinct, candidate lists nonempty and indices in range),
every destination ends up holding, material-wise, the cell one of its
candidates held when its intent was registered, and every non-chosen
candidate is unchanged at its source position. -/
theorem claim_C3_amended (chs : List (Nat × List Nat)) (cells : List Cell) (rs : List Nat)
    (h1 : (chs.map Prod.fst).Nodup) (h2 : (sourcesOf chs).Nodup)
    (h3 : ∀ p ∈ chs, p.2 ≠ []) (h4 : ∀ p ∈ chs, p.1 < cells.length)
    (h5 : ∀ p ∈ chs, ∀ s ∈ p.2, s ∉ chs.map Prod.fst) :
    ∀ p ∈ chs, ∃ s ∈ p.2,
      ((SandWorld.commitList cells chs rs).getD p.1 Cell.empty).cls =
        (cells.getD s Cell.empty).cls ∧
      ∀ s2 ∈ p.2, s2 ≠ s →
        (SandWorld.commitList cells chs rs).getD s2 Cell.empty =
          cells.getD s2 Cell.empty := by
  intro p hp
  obtain ⟨s, hs, hdst, hoth⟩ := commitList_entry chs cells rs h1 h2 h3 h4 h5 p hp
  exact ⟨s, hs, by rw [hdst], hoth⟩

/-- C3 witness: a single pending displacement on a two-cell grid. -/
theorem claim_C3_witness : ∃ s ∈ [(0 : Nat)],
    ((SandWorld.commitList [Cell.sand, Cell.empty] [(1, [0])] [0]).getD 1 Cell.empty).cls
      = (([Cell.sand, Cell.empty] : List Cell).getD s Cell.empty).cls ∧
    ∀ s2 ∈ [(0 : Nat)], s2 ≠ s →
      (SandWorld.commitList [Cell.sand, Cell.empty] [(1, [0])] [0]).getD s2 Cell.empty
        = ([Cell.sand, Cell.empty] : List Cell).getD s2 Cell.empty :=
  claim_C3_amended [(1, [0])] [Cell.sand, Cell.empty] [0]
    (by decide) (by decide) (by decide) (by decide) (by decide) (1, [0]) (by decide)

/-- C4: out-of-bounds coordinates are reported non-empty, and no movement
rule ever records an intent whose destination is out of bounds — every
newly recorded destination is the flat index of an in-bounds coordinate,
so no coordinate wraps at the grid edge. -/
theorem claim_C4_bounds_safety :
    (∀ (w : SandWorld) (x y : Nat), ¬ (x < w.width ∧ y < w.height) →
      w.is_empty x y = false) ∧
    (∀ (w : SandWorld) (x y : Nat) (coin : Bool) (w2 : SandWorld),
      (w2 = (w.move_down x y).2 ∨ w2 = (w.move_down_side x y coin).2 ∨
        w2 = (w.move_side x y coin).2 ∨ w2 = (w.move_up x y).2 ∨
        w2 = (w.move_up_side x y coin).2) →
      ∀ p ∈ w2.changes, p ∈ w.changes ∨
        ∃ xd yd, xd < w.width ∧ yd < w.height ∧ p.1 = w.get_index_by_pos xd yd) := by
  constructor
  · intro w x y h
    have hfalse : w.in_bounds x y = false := by
      unfold SandWorld.in_bounds
      by_cases h1 : x < w.width
      · by_cases h2 : y < w.height
        · exact absurd ⟨h1, h2⟩ h
        · simp [h1, h2]
      · simp [h1]
    unfold SandWorld.is_empty
    rw [hfalse]
    rfl
  · intro w x y coin w2 hmem
    rcases hmem with h | h | h | h | h
    · rw [h]
      exact moverOk_changes_super w _ x y (move_down_ok w x y)
    · rw [h]
      exact moverOk_changes_super w _ x y (move_down_side_ok w x y coin)
    · rw [h]
      exact moverOk_changes_super w _ x y (move_side_ok w x y coin)
    · rw [h]
      exact moverOk_changes_super w _ x y (move_up_ok w x y)
    · rw [h]
      exact moverOk_changes_super w _ x y (move_up_side_ok w x y coin)

/-- C4 witness: an out-of-bounds probe on a fresh grid reads non-empty. -/
theorem claim_C4_witness : (SandWorld.new 2 2 1).is_empty 5 0 = false :=
  claim_C4_bounds_safety.1 (SandWorld.new 2 2 1) 5 0 (by decide)

/-- C5 counterexample: a Water cell whose straight-down move is blocked
but whose lateral and diagonal-down destinations are all free takes the
diagonal-down move, not the lateral one the claimed DOWN, SIDE, DOWN-SIDE
order would produce. -/
theorem claim_C5_counterexample :
    ¬ (SandWorld.updateCell worldC5 1 0 true =
      (if (worldC5.move_down 1 0).1 then (worldC5.move_down 1 0).2
       else if (worldC5.move_side 1 0 true).1 then (worldC5.move_side 1 0 true).2
       else if (worldC5.move_down_side 1 0 true).1 then (worldC5.move_down_side 1 0 true).2
       else worldC5)) := by decide

/-- C5 amended: a Water cell tries its movements in the order DOWN first,
then DOWN-SIDE, then SIDE, stopping at the first movement that succeeds. -/
theorem claim_C5_amended (w : SandWorld) (x y : Nat) (coin : Bool)
    (hw : w.get_cell_by_pos x y = Cell.water) :
    SandWorld.updateCell w x y coin =
      (if (w.move_down x y).1 then (w.move_down x y).2
       else if (w.move_down_side x y coin).1 then (w.move_down_side x y coin).2
       else if (w.move_side x y coin).1 then (w.move_side x y coin).2
       else w) := by
  unfold SandWorld.updateCell
  rw [hw]
  dsimp only
  have hd : Cell.water.properties &&& CellProperties.MOVEDOWN ≠ 0 := by decide
  have hds : Cell.water.properties &&& CellProperties.MOVEDOWNSIDE ≠ 0 := by decide
  have hsd : Cell.water.properties &&& CellProperties.MOVESIDE ≠ 0 := by decide
  have hu : Cell.water.properties &&& CellProperties.MOVEUP = 0 := by decide
  have hus : Cell.water.properties &&& CellProperties.MOVEUPSIDE = 0 := by decide
  by_cases h1 : (w.move_down x y).1 = true
  · rw [if_pos ⟨hd, h1⟩, if_pos h1]
  · rw [if_neg (fun hc => h1 hc.2), if_neg h1]
    by_cases h2 : (w.move_down_side x y coin).1 = true
    · rw [if_pos ⟨hds, h2⟩, if_pos h2]
    · rw [if_neg (fun hc => h2 hc.2), if_neg h2]
      by_cases h3 : (w.move_side x y coin).1 = true
      · rw [if_pos ⟨hsd, h3⟩, if_pos h3]
      · rw [if_neg (fun hc => h3 hc.2), if_neg h3]
        rw [if_neg (fun hc => hc.1 hu), if_neg (fun hc => hc.1 hus)]

/-- C5 witness: the amended priority order at the blocked-down Water cell
of `worldC5`. -/
theorem claim_C5_witness :
    SandWorld.updateCell worldC5 1 0 true =
      (if (worldC5.move_down 1 0).1 then (worldC5.move_down 1 0).2
       else if (worldC5.move_down_side 1 0 true).1 then (worldC5.move_down_side 1 0 true).2
       else if (worldC5.move_side 1 0 true).1 then (worldC5.move_side 1 0 true).2
       else worldC5) :=
  claim_C5_amended worldC5 1 0 true (by decide)

/-- C6: commit semantics — the pending-moves map is empty after
`commit_cells`; the selected candidate is always a member of the
candidate list and every candidate is selected under some random draw
(the arbitration modeled over the RNG oracle); the selected move is a
swap exactly when the source holds Sand and the destination holds Water
at commit time, otherwise the destination is overwritten with the source
cell and the source is reset to Empty, all other cells untouched; and the
commit loop processes one destination entry per step. -/
theorem claim_C6_commit_semantics :
    (∀ (w : SandWorld) (rs : List Nat), (SandWorld.commit_cells w rs).changes = []) ∧
    (∀ (possible_sources : List Nat) (r : Nat), possible_sources ≠ [] →
      SandWorld.pickSource possible_sources r ∈ possible_sources) ∧
    (∀ (possible_sources : List Nat) (i : Nat), i < possible_sources.length →
      ∃ r, SandWorld.pickSource possible_sources r = possible_sources.getD i 0) ∧
    (∀ (cells : List Cell) (d s : Nat), d < cells.length → s < cells.length → s ≠ d →
      ((SandWorld.commitStep cells d s).getD d Cell.empty = cells.getD s Cell.empty) ∧
      (((cells.getD s Cell.empty).cls = CellClass.Sand ∧
          (cells.getD d Cell.empty).cls = CellClass.Water) →
        (SandWorld.commitStep cells d s).getD s Cell.empty = cells.getD d Cell.empty) ∧
      (¬ ((cells.getD s Cell.empty).cls = CellClass.Sand ∧
          (cells.getD d Cell.empty).cls = CellClass.Water) →
        (SandWorld.commitStep cells d s).getD s Cell.empty = Cell.empty) ∧
      (∀ q, q ≠ d → q ≠ s →
        (SandWorld.commitStep cells d s).getD q Cell.empty = cells.getD q Cell.empty)) ∧
    (∀ (cells : List Cell) (destination : Nat) (possible_sources : List Nat)
      (rest : List (Nat × List Nat)) (rs : List Nat),
      SandWorld.commitList cells ((destination, possible_sources) :: rest) rs =
        SandWorld.commitList
          (SandWorld.commitStep cells destination
            (SandWorld.pickSource possible_sources (rs.headD 0))) rest rs.tail) := by
  refine ⟨fun w rs => rfl, ?_, ?_, ?_, fun cells destination possible_sources rest rs => rfl⟩
  · intro possible_sources r h
    exact pickSource_mem possible_sources r h
  · intro possible_sources i hi
    refine ⟨i, ?_⟩
    unfold SandWorld.pickSource
    rw [Nat.mod_eq_of_lt hi]
  · intro cells d s hd hs hne
    refine ⟨commitStep_getD_dest cells d s hd hne, ?_, ?_, ?_⟩
    · intro hc
      exact commitStep_getD_source_swap cells d s hs hc
    · intro hc
      exact commitStep_getD_source_move cells d s hs hc
    · intro q h1 h2
      exact commitStep_getD_other cells d s q h1 h2

/-- C6 witness: candidate selection on a singleton candidate list. -/
theorem claim_C6_witness : SandWorld.pickSource [5] 3 ∈ [5] :=
  claim_C6_commit_semantics.2.1 [5] 3 (by decide)

/-- C7: `move_down(x, y)` succeeds (returning true and recording the
intent (x,y) → (x,y+1)) exactly when (x, y+1) is in bounds and either
Empty or Water under a Sand cell at (x, y); in every other case it
returns false and leaves the whole state unchanged. -/
theorem claim_C7_move_down (w : SandWorld) (x y : Nat) :
    ((w.move_down x y).1 = true ↔
      (x < w.width ∧ y + 1 < w.height ∧
        ((w.get_cell_by_pos x (y + 1)).cls = CellClass.Empty ∨
          ((w.get_cell_by_pos x y).cls = CellClass.Sand ∧
            (w.get_cell_by_pos x (y + 1)).cls = CellClass.Water)))) ∧
    ((w.move_down x y).1 = true →
      (w.move_down x y).2 = { w with changes := entryPush w.changes (w.get_index_by_pos x (y + 1)) (w.get_index_by_pos x y) }) ∧
    ((w.move_down x y).1 = false → (w.move_down x y).2 = w) := by
  unfold SandWorld.move_down
  dsimp only
  by_cases hb : w.in_bounds x (y + 1) = true
  · rw [if_neg (not_not_intro hb)]
    have hb2 := hb
    rw [SandWorld.in_bounds, Bool.and_eq_true, decide_eq_true_eq, decide_eq_true_eq] at hb2
    by_cases hcan : ((w.get_cell_by_pos x (y + 1)).cls = CellClass.Empty ∨
        ((w.get_cell_by_pos x y).cls = CellClass.Sand ∧
          (w.get_cell_by_pos x (y + 1)).cls = CellClass.Water))
    · rw [if_pos hcan]
      refine ⟨⟨fun _ => ⟨hb2.1, hb2.2, hcan⟩, fun _ => rfl⟩, fun _ => rfl, ?_⟩
      intro hfalse
      exact Bool.noConfusion hfalse
    · rw [if_neg hcan]
      refine ⟨⟨?_, ?_⟩, ?_, fun _ => rfl⟩
      · intro hfalse
        exact Bool.noConfusion hfalse
      · intro hcon
        exact absurd hcon.2.2 hcan
      · intro hfalse
        exact Bool.noConfusion hfalse
  · rw [if_pos hb]
    refine ⟨⟨?_, ?_⟩, ?_, fun _ => rfl⟩
    · intro hfalse
      exact Bool.noConfusion hfalse
    · intro hcon
      exfalso
      apply hb
      rw [SandWorld.in_bounds, Bool.and_eq_true, decide_eq_true_eq, decide_eq_true_eq]
      exact ⟨hcon.1, hcon.2.1⟩
    · intro hfalse
      exact Bool.noConfusion hfalse

/-- C7 witness: the sand cell of `worldC7` successfully moves down and
records exactly that intent. -/
theorem claim_C7_witness :
    (worldC7.move_down 0 0).2 = { worldC7 with changes := entryPush worldC7.changes (worldC7.get_index_by_pos 0 1) (worldC7.get_index_by_pos 0 0) } :=
  (claim_C7_move_down worldC7 0 0).2.1 (by decide)

/-- C8: during one tick's intent scan started from an empty pending-moves
map, the joined candidate-source list is duplicate-free: every source
index appears in at most one candidate list, and at most once overall. -/
theorem claim_C8_sources_nodup (w : SandWorld) (coin : Nat → Nat → Bool)
    (h0 : w.changes = []) :
    (sourcesOf ((SandWorld.update w coin).changes)).Nodup :=
  (update_inv w coin h0).2.1

/-- C8 witness: the scan of a fresh 2×2 grid. -/
theorem claim_C8_witness :
    (sourcesOf ((SandWorld.update (SandWorld.new 2 2 1) (fun _ _ => true)).changes)).Nodup :=
  claim_C8_sources_nodup (SandWorld.new 2 2 1) (fun _ _ => true) rfl

/-- C9: the movement rules and the whole intent scan never write the cells
array — they only append to the pending-moves map, so every read during a
tick's scan sees the grid as it was when the scan began. -/
theorem claim_C9_no_grid_writes (w : SandWorld) (x y : Nat) (coin : Bool)
    (coins : Nat → Nat → Bool) :
    (w.move_down x y).2.cells = w.cells ∧
    (w.move_down_side x y coin).2.cells = w.cells ∧
    (w.move_side x y coin).2.cells = w.cells ∧
    (w.move_up x y).2.cells = w.cells ∧
    (w.move_up_side x y coin).2.cells = w.cells ∧
    (SandWorld.update w coins).cells = w.cells :=
  ⟨(move_down_ok w x y).2.2.2.2.1, (move_down_side_ok w x y coin).2.2.2.2.1,
   (move_side_ok w x y coin).2.2.2.2.1, (move_up_ok w x y).2.2.2.2.1,
   (move_up_side_ok w x y coin).2.2.2.2.1, (update_fields w coins).1⟩

/-- C10: `commit_cells` reads the moved cell and the swap condition from
the grid at commit time.  With Sand at 0 over Water at 1 over a free cell
2 and pending moves 0 → 1 and 1 → 2, committing 0 → 1 first swaps Sand
into 1, so destination 2 then receives Sand although its source held
Water at intent-registration time — and the two iteration orders of the
map produce different grids. -/
theorem claim_C10_commit_time_reads :
    ((SandWorld.commitList [Cell.sand, Cell.water, Cell.empty]
        [(1, [0]), (2, [1])] [0, 0]).getD 2 Cell.empty).cls = CellClass.Sand ∧
    (([Cell.sand, Cell.water, Cell.empty] : List Cell).getD 1 Cell.empty).cls
      = CellClass.Water ∧
    CellClass.Sand ≠ CellClass.Water ∧
    SandWorld.commitList [Cell.sand, Cell.water, Cell.empty] [(1, [0]), (2, [1])] [0, 0] ≠
      SandWorld.commitList [Cell.sand, Cell.water, Cell.empty] [(2, [1]), (1, [0])] [0, 0] := by
  decide
